import Mathlib

/-!
Verification of the cago in-process cache (jasakode/cago).

The development shallowly embeds the two components the specification's
claims are about:

* the binary Store codec (`package store`): a byte buffer holding a fixed
  32-byte header (createdAt, updatedAt, maxAge, payload length, each an
  8-byte big-endian unsigned integer) followed by the raw payload;
* the TTL cache engine (the `package cago` iteration built around `Entry`,
  an expiry index and a janitor sweep), plus the two `Put` variants of the
  Store-based engine iterations (`cago.go` and the draft that carries the
  previous maxAge forward).

Go byte slices are embedded as `List Nat` whose elements are read modulo
256 (every real Go byte is already < 256, so the masking is the identity
on states that arise from the code).  Machine integers are `Nat`/`Int`
with explicit `% 2^64` where the code truncates.  Wall-clock time is an
explicit parameter everywhere `time.Now()` appears in the source.
-/

namespace store

/-- Big-endian bytes of a `uint64`, as written by `binary.BigEndian.PutUint64`
(and by `lib.Uint64ToByte`).  The value is truncated to 64 bits the way the
Go `uint64` argument is. -/
def u64ToBytes (n : Nat) : List Nat :=
  [n / 2 ^ 56 % 256, n / 2 ^ 48 % 256, n / 2 ^ 40 % 256, n / 2 ^ 32 % 256,
   n / 2 ^ 24 % 256, n / 2 ^ 16 % 256, n / 2 ^ 8 % 256, n % 256]

/-- Big-endian decoding of (the first) 8 bytes, as read by
`binary.BigEndian.Uint64` once the length precondition holds.  Each byte is
masked to its Go range. -/
def bytesToU64 (l : List Nat) : Nat :=
  match l with
  | [b0, b1, b2, b3, b4, b5, b6, b7] =>
      ((((((b0 % 256 * 256 + b1 % 256) * 256 + b2 % 256) * 256 + b3 % 256) * 256
        + b4 % 256) * 256 + b5 % 256) * 256 + b6 % 256) * 256 + b7 % 256
  | _ => 0

/-- `type Store []byte`: the codec's buffer. -/
abbrev Store := List Nat

/-- Header layout offsets of the Store buffer (source constants). -/
def CreateAtIndex : Nat := 0

def UpdateAtIndex : Nat := 8

def MaxAgeIndex : Nat := 16

def LengthIndex : Nat := 24

def DataStartIndex : Nat := 32

/-- `store.NewStore(data, maxAge...)`: header (createdAt = now, updatedAt = 0,
maxAge = given or 0, length = payload length) followed by a copy of the
payload.  The variadic `maxAge` is an `Option`. -/
def NewStore (now : Nat) (data : List Nat) (maxAge : Option Nat) : Store :=
  u64ToBytes now ++ u64ToBytes 0 ++ u64ToBytes (maxAge.getD 0) ++
    u64ToBytes data.length ++ data

/-- `store.ParseStore(data)`: rejects buffers shorter than the 32-byte header
with the empty sentinel, otherwise wraps the buffer unchanged. -/
def ParseStore (data : List Nat) : Store :=
  if data.length < DataStartIndex then [] else data

/-- `Store.CreateAt()`: big-endian read of bytes 0..7. -/
def Store.CreateAt (s : Store) : Nat :=
  bytesToU64 ((s.drop CreateAtIndex).take 8)

/-- `Store.UpdateAt()`: big-endian read of bytes 8..15. -/
def Store.UpdateAt (s : Store) : Nat :=
  bytesToU64 ((s.drop UpdateAtIndex).take 8)

/-- `Store.MaxAge()`: big-endian read of bytes 16..23. -/
def Store.MaxAge (s : Store) : Nat :=
  bytesToU64 ((s.drop MaxAgeIndex).take 8)

/-- `Store.Length(all...)`: the total buffer size when `all` begins with
`true`, otherwise the stored payload-length header field (bytes 24..31). -/
def Store.Length (s : Store) (all : List Bool) : Nat :=
  if all.headD false then s.length else bytesToU64 ((s.drop LengthIndex).take 8)

/-- `Store.Bytes()`: the payload slice `s[DataStartIndex:]`. -/
def Store.Bytes (s : Store) : List Nat :=
  s.drop DataStartIndex

/-- `Store.Text()`: the payload slice viewed as a Go string (its bytes). -/
def Store.Text (s : Store) : List Nat :=
  s.drop DataStartIndex

/-- Outcome of `Store.Int()`.  Go has three behaviours here: an error return,
a normal return, and a runtime panic (when `binary.BigEndian.Uint64` is handed
fewer than 8 bytes). -/
inductive IntResult where
  | ok (n : Nat)
  | err
  | crash
deriving DecidableEq

/-- `Store.Int()`: returns the error when the stored length *header field* is
below 8; otherwise reads `binary.BigEndian.Uint64(s[DataStartIndex:])`, which
panics if the actual payload holds fewer than 8 bytes and otherwise yields the
big-endian value of the first 8 payload bytes. -/
def Store.Int (s : Store) : IntResult :=
  if Store.Length s [] < 8 then .err
  else if (s.drop DataStartIndex).length < 8 then .crash
  else .ok (bytesToU64 ((s.drop DataStartIndex).take 8))

theorem u64ToBytes_length (n : Nat) : (u64ToBytes n).length = 8 := rfl

theorem bytesToU64_u64ToBytes (n : Nat) :
    bytesToU64 (u64ToBytes n) = n % 2 ^ 64 := by
  have hX : ((n / 2 ^ 56 % 256 % 256 * 256 + n / 2 ^ 48 % 256 % 256) * 256
      + n / 2 ^ 40 % 256 % 256) * 256 + n / 2 ^ 32 % 256 % 256
      = n / 2 ^ 32 % 2 ^ 32 := by
    omega
  have hY : ((n / 2 ^ 24 % 256 % 256 * 256 + n / 2 ^ 16 % 256 % 256) * 256
      + n / 2 ^ 8 % 256 % 256) * 256 + n % 256 % 256 = n % 2 ^ 32 := by
    omega
  simp only [bytesToU64, u64ToBytes]
  rw [show ((((((n / 2 ^ 56 % 256 % 256 * 256 + n / 2 ^ 48 % 256 % 256) * 256
        + n / 2 ^ 40 % 256 % 256) * 256 + n / 2 ^ 32 % 256 % 256) * 256
        + n / 2 ^ 24 % 256 % 256) * 256 + n / 2 ^ 16 % 256 % 256) * 256
        + n / 2 ^ 8 % 256 % 256) * 256 + n % 256 % 256
      = (((n / 2 ^ 56 % 256 % 256 * 256 + n / 2 ^ 48 % 256 % 256) * 256
        + n / 2 ^ 40 % 256 % 256) * 256 + n / 2 ^ 32 % 256 % 256) * 2 ^ 32
        + (((n / 2 ^ 24 % 256 % 256 * 256 + n / 2 ^ 16 % 256 % 256) * 256
        + n / 2 ^ 8 % 256 % 256) * 256 + n % 256 % 256) from by ring]
  rw [hX, hY]
  omega

theorem bytesToU64_lt (l : List Nat) : bytesToU64 l < 2 ^ 64 := by
  unfold bytesToU64
  split
  · omega
  · decide

theorem NewStore_length (now : Nat) (p : List Nat) (a : Option Nat) :
    (NewStore now p a).length = 32 + p.length := by
  simp [NewStore, u64ToBytes_length]
  omega

theorem ParseStore_NewStore (now : Nat) (p : List Nat) (a : Option Nat) :
    ParseStore (NewStore now p a) = NewStore now p a := by
  unfold ParseStore
  rw [NewStore_length]
  simp [DataStartIndex]

theorem NewStore_drop_32 (now : Nat) (p : List Nat) (a : Option Nat) :
    (NewStore now p a).drop 32 = p := by
  unfold NewStore
  rw [show (32 : Nat) = (u64ToBytes now ++ u64ToBytes 0 ++ u64ToBytes (a.getD 0)
        ++ u64ToBytes p.length).length by simp [u64ToBytes_length],
      List.append_assoc, List.append_assoc, List.append_assoc]
  rw [← List.append_assoc, ← List.append_assoc, ← List.append_assoc]
  exact List.drop_left _ _

theorem NewStore_maxAge (now : Nat) (p : List Nat) (a : Option Nat) :
    Store.MaxAge (NewStore now p a) = a.getD 0 % 2 ^ 64 := by
  unfold Store.MaxAge NewStore MaxAgeIndex
  rw [show u64ToBytes now ++ u64ToBytes 0 ++ u64ToBytes (a.getD 0) ++
        u64ToBytes p.length ++ p
      = (u64ToBytes now ++ u64ToBytes 0) ++
        (u64ToBytes (a.getD 0) ++ (u64ToBytes p.length ++ p)) by
    simp [List.append_assoc]]
  rw [List.drop_left' (by simp [u64ToBytes_length]),
      List.take_left' (by simp [u64ToBytes_length])]
  exact bytesToU64_u64ToBytes _

/-- C1.  Round-trip of the Store codec: for every payload `p` and every
`maxAge` value `a` (a Go `uint64`, so `a < 2^64`), decoding the buffer
produced by `NewStore p a` with `ParseStore` yields a Store whose `Bytes()`
accessor returns exactly `p` and whose `MaxAge()` accessor returns exactly
`a`. -/
theorem c1_store_roundtrip (now : Nat) (p : List Nat) (a : Nat) (ha : a < 2 ^ 64) :
    Store.Bytes (ParseStore (NewStore now p (some a))) = p ∧
    Store.MaxAge (ParseStore (NewStore now p (some a))) = a := by
  rw [ParseStore_NewStore]
  constructor
  · exact NewStore_drop_32 now p (some a)
  · rw [NewStore_maxAge]
    simpa using Nat.mod_eq_of_lt ha

/-- Witness for C1 at `p = [1, 2, 3]`, `a = 60`. -/
theorem c1_store_roundtrip_witness :
    (60 : Nat) < 2 ^ 64 ∧
    (Store.Bytes (ParseStore (NewStore 5 [1, 2, 3] (some 60))) = [1, 2, 3] ∧
     Store.MaxAge (ParseStore (NewStore 5 [1, 2, 3] (some 60))) = 60) :=
  ⟨by decide, c1_store_roundtrip 5 [1, 2, 3] 60 (by decide)⟩

/-- C2.  Invalid decode: every buffer shorter than the 32-byte header decodes
to the empty/invalid Store sentinel; `ParseStore` only tests the length, so it
never reads past the end of the buffer. -/
theorem c2_parse_short_invalid (b : List Nat) (hb : b.length < 32) :
    ParseStore b = [] := by
  unfold ParseStore DataStartIndex
  simp [hb]

/-- Witness for C2 at the 7-byte buffer from the source test
(`[]byte("invalid")`). -/
theorem c2_parse_short_invalid_witness :
    ([105, 110, 118, 97, 108, 105, 100] : List Nat).length < 32 ∧
    ParseStore [105, 110, 118, 97, 108, 105, 100] = [] :=
  ⟨by decide, c2_parse_short_invalid _ (by decide)⟩

/-- A 33-byte buffer whose stored length header claims 8 payload bytes while
only one payload byte is actually present.  `ParseStore` accepts it (length
≥ 32). -/
def c9buf : List Nat :=
  u64ToBytes 0 ++ u64ToBytes 0 ++ u64ToBytes 0 ++ u64ToBytes 8 ++ [42]

/-- C9, counterexample.  The claim asserts that whenever the integer view does
not fail with the too-short error it returns the big-endian value of the first
8 payload bytes *without panicking*, even when the stored length header
disagrees with the actual payload size.  On `c9buf` the header field is 8, so
the too-short check passes, yet the payload holds a single byte and
`binary.BigEndian.Uint64` panics (index out of range). -/
theorem c9_counterexample :
    ParseStore c9buf = c9buf ∧ Store.Int c9buf = IntResult.crash := by
  decide

/-- C9, amended.  For every decoded buffer (length ≥ 32): `Int()` returns the
too-short error exactly when the stored length *header field* is below 8;
when the header field is at least 8 it returns the big-endian 64-bit value of
the first 8 actual payload bytes provided at least 8 payload bytes are
present, and it panics when the actual payload is shorter than 8 bytes. -/
theorem c9_int_header_check (s : List Nat) (_hs : 32 ≤ s.length) :
    (Store.Int s = IntResult.err ↔ Store.Length s [] < 8) ∧
    (8 ≤ Store.Length s [] → 8 ≤ s.length - 32 →
      Store.Int s = IntResult.ok (bytesToU64 ((s.drop DataStartIndex).take 8))) ∧
    (8 ≤ Store.Length s [] → s.length - 32 < 8 →
      Store.Int s = IntResult.crash) := by
  have hdrop : (s.drop DataStartIndex).length = s.length - 32 := by
    simp [DataStartIndex]
  refine ⟨⟨fun h => ?_, fun h => ?_⟩, fun h1 h2 => ?_, fun h1 h2 => ?_⟩
  · by_contra hc
    unfold Store.Int at h
    rw [if_neg hc] at h
    split at h <;> exact IntResult.noConfusion h
  · unfold Store.Int
    rw [if_pos h]
  · unfold Store.Int
    rw [hdrop, if_neg (by omega), if_neg (by omega)]
  · unfold Store.Int
    rw [hdrop, if_neg (by omega), if_pos h2]

/-- A valid buffer: header length field 8 with exactly 8 payload bytes. -/
def c9okbuf : List Nat :=
  u64ToBytes 0 ++ u64ToBytes 0 ++ u64ToBytes 0 ++ u64ToBytes 8 ++
    [0, 0, 0, 0, 0, 0, 1, 1]

/-- Witness for the amended C9 on `c9okbuf`. -/
theorem c9_int_header_check_witness :
    (32 ≤ c9okbuf.length ∧ 8 ≤ Store.Length c9okbuf [] ∧
      8 ≤ c9okbuf.length - 32) ∧
    Store.Int c9okbuf = IntResult.ok 257 := by
  refine ⟨⟨by decide, by decide, by decide⟩, ?_⟩
  have h := (c9_int_header_check c9okbuf (by decide)).2.1 (by decide) (by decide)
  rw [h]
  decide

end store

namespace cago

/-- Go dynamic values (`any`) as stored by the cache engine, restricted to the
value shapes the claims exercise: strings (as their UTF-8 bytes) and the
integer family (as a mathematical integer). -/
inductive GoVal where
  | str (bs : List Nat)
  | int (n : Int)
deriving DecidableEq

/-- `type Entry struct` from `entry.go`: a cache item with its value and its
unix-millisecond timestamps.  `expiresAt = 0` means "never expires". -/
structure Entry where
  key : String
  value : GoVal
  expiresAt : Int
  createdAt : Int
  updatedAt : Int
deriving DecidableEq

/-- `Entry.isExpiredAt(nowMs)`: `e.ExpiresAt > 0 && nowMs >= e.ExpiresAt`. -/
def Entry.isExpiredAt (e : Entry) (nowMs : Int) : Bool :=
  decide (e.expiresAt > 0) && decide (nowMs ≥ e.expiresAt)

/-- Pointwise update of a Go map embedded as a function (`m[k] = v` /
`delete(m, k)`). -/
def update {α : Type} (d : String → Option α) (k : String) (v : Option α) :
    String → Option α :=
  fun q => if q = k then v else d q

/-- The mutable state of the `Cago` engine: the entry table `data` and the
expiry index `index` mapping an expiry timestamp (unix ms) to the keys that
were registered under it.  The index is an association list whose bucket
keys stay pairwise distinct, mirroring the Go map `map[int64][]string`. -/
structure Cago where
  data : String → Option Entry
  index : List (Int × List String)

/-- The fresh state built by `New`: empty table, empty index. -/
def initState : Cago :=
  { data := fun _ => none, index := [] }

/-- `c.index[exp]` on the Go map: the bucket for `exp`, or `nil`. -/
def indexGet (idx : List (Int × List String)) (exp : Int) : List String :=
  match idx.find? (fun b => b.1 == exp) with
  | some b => b.2
  | none => []

/-- `c.index[exp] = append(c.index[exp], k)` on the Go map: extend the bucket
for `exp`, creating it when absent. -/
def indexAppend (idx : List (Int × List String)) (exp : Int) (k : String) :
    List (Int × List String) :=
  match idx with
  | [] => [(exp, [k])]
  | b :: rest =>
      if b.1 == exp then (b.1, b.2 ++ [k]) :: rest
      else b :: indexAppend rest exp k

/-- `time.Duration.Milliseconds()`: the duration (nanoseconds) divided by
10^6, truncating toward zero. -/
def msOf (d : Int) : Int :=
  d.tdiv 1000000

/-- The expiry timestamp `Set`/`Put` compute: `nowMs + ttl.Milliseconds()`
when `ttl > 0`, and the never-expires sentinel `0` otherwise. -/
def setExp (ttl nowMs : Int) : Int :=
  if 0 < ttl then nowMs + msOf ttl else 0

/-- `Set[T](key, value, ttl)`: fails with `ErrKeyExists` when the key holds a
non-expired entry; otherwise stores a fresh entry and, when it expires,
registers the key in the expiry index.  The error is embedded as
`Except.error ()`; on error the state is left untouched (the Go code returns
before mutating). -/
def Set (key : String) (v : GoVal) (ttl nowMs : Int) (s : Cago) :
    Except Unit Cago :=
  if (s.data key).elim false (fun e => !(e.isExpiredAt nowMs)) then
    .error ()
  else
    .ok { data := update s.data key
            (some ⟨key, v, setExp ttl nowMs, nowMs, nowMs⟩)
        , index :=
            if 0 < setExp ttl nowMs then
              indexAppend s.index (setExp ttl nowMs) key
            else s.index }

/-- `Put[T](key, value, ttl)`: unconditional upsert of a fresh entry; the
replaced entry's index bucket is deliberately left stale (the source comment
defers it to the janitor's re-validation). -/
def Put (key : String) (v : GoVal) (ttl nowMs : Int) (s : Cago) : Cago :=
  { data := update s.data key (some ⟨key, v, setExp ttl nowMs, nowMs, nowMs⟩)
  , index :=
      if 0 < setExp ttl nowMs then
        indexAppend s.index (setExp ttl nowMs) key
      else s.index }

/-- `Remove(key)`: delete the key from the table only, reporting whether it
was present. -/
def Remove (key : String) (s : Cago) : Bool × Cago :=
  match s.data key with
  | some _ => (true, { s with data := update s.data key none })
  | none => (false, s)

/-- The state effect of `Get`: a lazy delete when the entry is expired,
otherwise no mutation.  (`Get`'s value result depends on the requested type;
its state effect does not.) -/
def getStep (key : String) (nowMs : Int) (s : Cago) : Cago :=
  match s.data key with
  | none => s
  | some e => if e.isExpiredAt nowMs then (Remove key s).2 else s

/-- `Get[T](key)`: absent key is a miss; an expired entry is lazily removed
and reported as a miss; otherwise the stored dynamic value is type-asserted
to `T` (`cast`), a failed assertion being a miss.  `cast` embeds the Go type
assertion `e.Value.(T)` for the concrete requested type. -/
def Get {α : Type} (cast : GoVal → Option α) (key : String) (nowMs : Int)
    (s : Cago) : Option α × Cago :=
  match s.data key with
  | none => (none, s)
  | some e =>
      if e.isExpiredAt nowMs then (none, (Remove key s).2)
      else (cast e.value, s)

/-- The type assertion `e.Value.(string)`. -/
def castStr : GoVal → Option (List Nat)
  | .str bs => some bs
  | .int _ => none

/-- `Exist(key)`: present and not expired; no mutation. -/
def Exist (key : String) (nowMs : Int) (s : Cago) : Bool :=
  (s.data key).elim false (fun e => !(e.isExpiredAt nowMs))

/-- `Clear()`: fresh table and fresh index. -/
def Clear (_s : Cago) : Cago :=
  { data := fun _ => none, index := [] }

/-- The inner loop of `cleanup` over one expired bucket: each listed key is
deleted from the table only after re-checking that its current entry really
is expired at `nowMs`. -/
def sweepKeys (nowMs : Int) (keys : List String)
    (d : String → Option Entry) : String → Option Entry :=
  keys.foldl
    (fun d k =>
      match d k with
      | some e => if e.isExpiredAt nowMs then update d k none else d
      | none => d)
    d

/-- `Cago.cleanup(now)`: sweep every index bucket whose timestamp has passed,
deleting (after the re-check) the keys it lists, and drop those buckets from
the index.  The Go `range` order over the map does not affect the result
because bucket processing only ever deletes expired entries. -/
def cleanup (nowMs : Int) (s : Cago) : Cago :=
  { data :=
      (s.index.filter (fun b => decide (b.1 ≤ nowMs))).foldl
        (fun d b => sweepKeys nowMs b.2 d) s.data
  , index := s.index.filter (fun b => !decide (b.1 ≤ nowMs)) }

/-- The states reachable from a fresh engine through the exported operations
and the janitor's periodic sweep; the `nowMs` arguments are free, standing
for the wall-clock readings of each call. -/
inductive Reachable : Cago → Prop where
  | init : Reachable initState
  | set (k : String) (v : GoVal) (ttl nowMs : Int) (s s' : Cago) :
      Reachable s → Set k v ttl nowMs s = .ok s' → Reachable s'
  | put (k : String) (v : GoVal) (ttl nowMs : Int) (s : Cago) :
      Reachable s → Reachable (Put k v ttl nowMs s)
  | get (k : String) (nowMs : Int) (s : Cago) :
      Reachable s → Reachable (getStep k nowMs s)
  | remove (k : String) (s : Cago) :
      Reachable s → Reachable ((Remove k s).2)
  | clear (s : Cago) : Reachable s → Reachable (Clear s)
  | sweep (nowMs : Int) (s : Cago) :
      Reachable s → Reachable (cleanup nowMs s)

/-- `getStep` is exactly the state effect of `Get`, for every requested
type. -/
theorem Get_state_eq_getStep {α : Type} (cast : GoVal → Option α)
    (key : String) (nowMs : Int) (s : Cago) :
    (Get cast key nowMs s).2 = getStep key nowMs s := by
  unfold Get getStep
  cases hd : s.data key with
  | none => rfl
  | some e =>
      cases hex : e.isExpiredAt nowMs with
      | false => simp only [hex, Bool.false_eq_true, if_false]
      | true => simp only [hex, if_true]

/-- The expiry-index invariant: every table entry that can expire is listed
in the bucket keyed by its exact `expiresAt`. -/
def Indexed (s : Cago) : Prop :=
  ∀ k e, s.data k = some e → 0 < e.expiresAt →
    k ∈ indexGet s.index e.expiresAt

theorem mem_indexGet_indexAppend_self (idx : List (Int × List String))
    (exp : Int) (k : String) : k ∈ indexGet (indexAppend idx exp k) exp := by
  induction idx with
  | nil => simp [indexAppend, indexGet]
  | cons b rest ih =>
      cases hb : b.1 == exp with
      | true => simp [indexAppend, hb, indexGet]
      | false =>
          rw [show indexAppend (b :: rest) exp k = b :: indexAppend rest exp k
            from by simp [indexAppend, hb]]
          simpa [indexGet, List.find?_cons, hb] using ih

theorem mem_indexGet_indexAppend (idx : List (Int × List String))
    (e' e : Int) (q k : String) (h : q ∈ indexGet idx e') :
    q ∈ indexGet (indexAppend idx e k) e' := by
  induction idx with
  | nil => simp [indexGet] at h
  | cons b rest ih =>
      cases hb : b.1 == e with
      | true =>
          rw [show indexAppend (b :: rest) e k = (b.1, b.2 ++ [k]) :: rest
            from by simp [indexAppend, hb]]
          cases hb' : b.1 == e' with
          | true =>
              simp only [indexGet, List.find?_cons, hb'] at h
              simp [indexGet, List.find?_cons, hb']
              exact Or.inl h
          | false =>
              simp only [indexGet, List.find?_cons, hb'] at h
              simpa [indexGet, List.find?_cons, hb'] using h
      | false =>
          rw [show indexAppend (b :: rest) e k = b :: indexAppend rest e k
            from by simp [indexAppend, hb]]
          cases hb' : b.1 == e' with
          | true =>
              simp only [indexGet, List.find?_cons, hb'] at h
              simpa [indexGet, List.find?_cons, hb'] using h
          | false =>
              simp only [indexGet, List.find?_cons, hb'] at h
              simpa [indexGet, List.find?_cons, hb'] using ih h

theorem indexGet_filter (idx : List (Int × List String)) (e : Int)
    (p : Int × List String → Bool)
    (hp : ∀ b : Int × List String, (b.1 == e) = true → p b = true) :
    indexGet (idx.filter p) e = indexGet idx e := by
  induction idx with
  | nil => rfl
  | cons b rest ih =>
      cases hpb : p b with
      | true =>
          cases hb : b.1 == e with
          | true => simp [indexGet, List.filter_cons, hpb, List.find?_cons, hb]
          | false =>
              simp only [List.filter_cons, hpb, if_true]
              simp only [indexGet, List.find?_cons, hb] at ih ⊢
              exact ih
      | false =>
          have hb : (b.1 == e) = false := by
            cases hc : b.1 == e with
            | false => rfl
            | true => rw [hp b hc] at hpb; exact Bool.noConfusion hpb
          simp only [List.filter_cons, hpb, Bool.false_eq_true, if_false]
          simp only [indexGet, List.find?_cons, hb, Bool.false_eq_true,
            if_false] at ih ⊢
          exact ih

theorem exists_bucket_of_mem_indexGet (idx : List (Int × List String))
    (e : Int) (k : String) (h : k ∈ indexGet idx e) :
    ∃ b, b ∈ idx ∧ b.1 = e ∧ k ∈ b.2 := by
  unfold indexGet at h
  cases hf : idx.find? (fun b => b.1 == e) with
  | none => rw [hf] at h; simp at h
  | some b =>
      rw [hf] at h
      refine ⟨b, List.mem_of_find?_eq_some hf, ?_, h⟩
      have := List.find?_some hf
      simpa using this

theorem sweepKeys_cons (nowMs : Int) (k0 : String) (rest : List String)
    (d : String → Option Entry) :
    sweepKeys nowMs (k0 :: rest) d =
      sweepKeys nowMs rest
        (match d k0 with
         | some e => if e.isExpiredAt nowMs then update d k0 none else d
         | none => d) := rfl

theorem sweepKeys_shrink (nowMs : Int) (keys : List String)
    (d : String → Option Entry) (k : String) :
    sweepKeys nowMs keys d k = d k ∨ sweepKeys nowMs keys d k = none := by
  induction keys generalizing d with
  | nil => exact Or.inl rfl
  | cons k0 rest ih =>
      rw [sweepKeys_cons]
      cases hd0 : d k0 with
      | none => simp only [hd0]; exact ih d
      | some e0 =>
          simp only [hd0]
          cases hex : e0.isExpiredAt nowMs with
          | false => simp only [hex, Bool.false_eq_true, if_false]; exact ih d
          | true =>
              simp only [hex, if_true]
              rcases ih (update d k0 none) with h | h
              · rw [h]
                unfold update
                by_cases hkk : k = k0
                · simp [hkk]
                · simp [hkk]
              · exact Or.inr h

theorem sweepKeys_keep (nowMs : Int) (keys : List String)
    (d : String → Option Entry) (k : String) (e : Entry)
    (hk : d k = some e) (he : e.isExpiredAt nowMs = false) :
    sweepKeys nowMs keys d k = some e := by
  induction keys generalizing d with
  | nil => exact hk
  | cons k0 rest ih =>
      rw [sweepKeys_cons]
      cases hd0 : d k0 with
      | none => simp only [hd0]; exact ih d hk
      | some e0 =>
          simp only [hd0]
          cases hex : e0.isExpiredAt nowMs with
          | false => simp only [hex, Bool.false_eq_true, if_false]; exact ih d hk
          | true =>
              simp only [hex, if_true]
              refine ih (update d k0 none) ?_
              unfold update
              by_cases hkk : k = k0
              · subst hkk
                rw [hk] at hd0
                injection hd0 with hh
                subst hh
                rw [he] at hex
                exact Bool.noConfusion hex
              · simp [hkk, hk]

theorem sweepKeys_kill (nowMs : Int) (keys : List String)
    (d : String → Option Entry) (k : String) (hmem : k ∈ keys)
    (hdoom : ∀ e, d k = some e → e.isExpiredAt nowMs = true) :
    sweepKeys nowMs keys d k = none := by
  induction keys generalizing d with
  | nil => cases hmem
  | cons k0 rest ih =>
      rw [sweepKeys_cons]
      by_cases hkk : k = k0
      · subst hkk
        cases hd0 : d k with
        | none =>
            simp only [hd0]
            rcases sweepKeys_shrink nowMs rest d k with h | h
            · rw [h, hd0]
            · exact h
        | some e =>
            have hex := hdoom e hd0
            simp only [hd0, hex, if_true]
            rcases sweepKeys_shrink nowMs rest (update d k none) k with h | h
            · rw [h]; simp [update]
            · exact h
      · have hmem' : k ∈ rest := by
          rcases List.mem_cons.mp hmem with h | h
          · exact absurd h hkk
          · exact h
        cases hd0 : d k0 with
        | none => simp only [hd0]; exact ih d hmem' hdoom
        | some e0 =>
            simp only [hd0]
            cases hex : e0.isExpiredAt nowMs with
            | false =>
                simp only [hex, Bool.false_eq_true, if_false]
                exact ih d hmem' hdoom
            | true =>
                simp only [hex, if_true]
                refine ih (update d k0 none) hmem' ?_
                intro e he
                apply hdoom
                unfold update at he
                simpa [hkk] using he

theorem bucketFold_shrink (nowMs : Int) (bs : List (Int × List String))
    (d : String → Option Entry) (k : String) :
    List.foldl (fun d b => sweepKeys nowMs b.2 d) d bs k = d k ∨
    List.foldl (fun d b => sweepKeys nowMs b.2 d) d bs k = none := by
  induction bs generalizing d with
  | nil => exact Or.inl rfl
  | cons b0 rest ih =>
      rw [List.foldl_cons]
      rcases ih (sweepKeys nowMs b0.2 d) with h | h
      · rw [h]
        exact sweepKeys_shrink nowMs b0.2 d k
      · exact Or.inr h

theorem bucketFold_keep (nowMs : Int) (bs : List (Int × List String))
    (d : String → Option Entry) (k : String) (e : Entry)
    (hk : d k = some e) (he : e.isExpiredAt nowMs = false) :
    List.foldl (fun d b => sweepKeys nowMs b.2 d) d bs k = some e := by
  induction bs generalizing d with
  | nil => exact hk
  | cons b0 rest ih =>
      rw [List.foldl_cons]
      exact ih (sweepKeys nowMs b0.2 d) (sweepKeys_keep nowMs b0.2 d k e hk he)

theorem bucketFold_kill (nowMs : Int) (bs : List (Int × List String))
    (d : String → Option Entry) (k : String)
    (hb : ∃ b, b ∈ bs ∧ k ∈ (b : Int × List String).2)
    (hdoom : ∀ e, d k = some e → e.isExpiredAt nowMs = true) :
    List.foldl (fun d b => sweepKeys nowMs b.2 d) d bs k = none := by
  induction bs generalizing d with
  | nil => rcases hb with ⟨b, hbm, _⟩; cases hbm
  | cons b0 rest ih =>
      rw [List.foldl_cons]
      rcases hb with ⟨b, hbm, hkb⟩
      rcases List.mem_cons.mp hbm with hb0 | hbr
      · subst hb0
        have h1 : sweepKeys nowMs b.2 d k = none :=
          sweepKeys_kill nowMs b.2 d k hkb hdoom
        rcases bucketFold_shrink nowMs rest (sweepKeys nowMs b.2 d) k with h | h
        · rw [h, h1]
        · exact h
      · refine ih (sweepKeys nowMs b0.2 d) ⟨b, hbr, hkb⟩ ?_
        intro e he
        rcases sweepKeys_shrink nowMs b0.2 d k with h | h
        · exact hdoom e (h ▸ he)
        · rw [h] at he; exact Option.noConfusion he

theorem cleanup_data (nowMs : Int) (s : Cago) :
    (cleanup nowMs s).data =
      (s.index.filter (fun b => decide (b.1 ≤ nowMs))).foldl
        (fun d b => sweepKeys nowMs b.2 d) s.data := rfl

theorem cleanup_index (nowMs : Int) (s : Cago) :
    (cleanup nowMs s).index =
      s.index.filter (fun b => !decide (b.1 ≤ nowMs)) := rfl

theorem cleanup_keep (nowMs : Int) (s : Cago) (k : String) (e : Entry)
    (hk : s.data k = some e) (he : e.isExpiredAt nowMs = false) :
    (cleanup nowMs s).data k = some e := by
  rw [cleanup_data]
  exact bucketFold_keep nowMs _ s.data k e hk he

theorem cleanup_kill (nowMs : Int) (s : Cago) (k : String) (e : Entry)
    (hs : Indexed s) (hk : s.data k = some e) (hpos : 0 < e.expiresAt)
    (hle : e.expiresAt ≤ nowMs) :
    (cleanup nowMs s).data k = none := by
  rw [cleanup_data]
  have hmem := hs k e hk hpos
  rcases exists_bucket_of_mem_indexGet s.index e.expiresAt k hmem with
    ⟨b, hbm, hbe, hkb⟩
  refine bucketFold_kill nowMs _ s.data k ⟨b, ?_, hkb⟩ ?_
  · exact List.mem_filter.mpr ⟨hbm, by simp [hbe, hle]⟩
  · intro e' he'
    rw [hk] at he'
    injection he' with hh
    subst hh
    unfold Entry.isExpiredAt
    simp only [Bool.and_eq_true, decide_eq_true_eq]
    exact ⟨hpos, hle⟩

theorem indexed_init : Indexed initState := by
  intro k e hk
  exact Option.noConfusion hk

theorem indexed_upsert (s : Cago) (key : String) (v : GoVal) (exp c u : Int)
    (hs : Indexed s) :
    Indexed { data := update s.data key (some ⟨key, v, exp, c, u⟩)
            , index := if 0 < exp then indexAppend s.index exp key
                       else s.index } := by
  intro k e hk hpos
  dsimp only at hk ⊢
  unfold update at hk
  by_cases hkk : k = key
  · rw [if_pos hkk] at hk
    injection hk with hh
    subst hh
    rw [if_pos (by simpa using hpos)]
    subst hkk
    exact mem_indexGet_indexAppend_self s.index exp k
  · rw [if_neg hkk] at hk
    have hmem := hs k e hk hpos
    by_cases hexp : 0 < exp
    · rw [if_pos hexp]
      exact mem_indexGet_indexAppend s.index e.expiresAt exp k key hmem
    · rw [if_neg hexp]
      exact hmem

theorem indexed_delete (s : Cago) (key : String) (hs : Indexed s) :
    Indexed { s with data := update s.data key none } := by
  intro k e hk hpos
  dsimp only at hk ⊢
  unfold update at hk
  by_cases hkk : k = key
  · rw [if_pos hkk] at hk
    exact Option.noConfusion hk
  · rw [if_neg hkk] at hk
    exact hs k e hk hpos

theorem indexed_remove (s : Cago) (key : String) (hs : Indexed s) :
    Indexed (Remove key s).2 := by
  unfold Remove
  cases hd : s.data key with
  | none => exact hs
  | some e => exact indexed_delete s key hs

theorem indexed_getStep (s : Cago) (key : String) (nowMs : Int)
    (hs : Indexed s) : Indexed (getStep key nowMs s) := by
  unfold getStep
  cases hd : s.data key with
  | none => exact hs
  | some e =>
      cases hex : e.isExpiredAt nowMs with
      | false => simp only [hex, Bool.false_eq_true, if_false]; exact hs
      | true => simp only [hex, if_true]; exact indexed_remove s key hs

theorem indexed_clear (s : Cago) : Indexed (Clear s) := by
  intro k e hk
  exact Option.noConfusion hk

theorem indexed_cleanup (nowMs : Int) (s : Cago) (hs : Indexed s) :
    Indexed (cleanup nowMs s) := by
  intro k e hk hpos
  have hsome : s.data k = some e := by
    rcases bucketFold_shrink nowMs
        (s.index.filter (fun b => decide (b.1 ≤ nowMs))) s.data k with h | h
    · rw [cleanup_data] at hk; rw [← h]; exact hk
    · rw [cleanup_data] at hk; rw [h] at hk; exact Option.noConfusion hk
  by_cases hle : e.expiresAt ≤ nowMs
  · have := cleanup_kill nowMs s k e hs hsome hpos hle
    rw [this] at hk
    exact Option.noConfusion hk
  · have hmem := hs k e hsome hpos
    rw [cleanup_index]
    rw [indexGet_filter]
    · exact hmem
    · intro b hb
      have hbe : b.1 = e.expiresAt := by simpa using hb
      simp [hbe, hle]

theorem Set_ok_shape (k : String) (v : GoVal) (ttl nowMs : Int) (s s' : Cago)
    (h : Set k v ttl nowMs s = .ok s') :
    s' = { data := update s.data k (some ⟨k, v, setExp ttl nowMs, nowMs, nowMs⟩)
         , index := if 0 < setExp ttl nowMs then
                      indexAppend s.index (setExp ttl nowMs) k
                    else s.index } := by
  unfold Set at h
  by_cases hg : ((s.data k).elim false (fun e => !(e.isExpiredAt nowMs))) = true
  · rw [if_pos hg] at h
    exact Except.noConfusion h
  · rw [if_neg hg] at h
    injection h with hh
    exact hh.symm

theorem reachable_indexed (s : Cago) (h : Reachable s) : Indexed s := by
  induction h with
  | init => exact indexed_init
  | set k v ttl nowMs s s' _ hok ih =>
      rw [Set_ok_shape k v ttl nowMs s s' hok]
      exact indexed_upsert s k v (setExp ttl nowMs) nowMs nowMs ih
  | put k v ttl nowMs s _ ih =>
      exact indexed_upsert s k v (setExp ttl nowMs) nowMs nowMs ih
  | get k nowMs s _ ih => exact indexed_getStep s k nowMs ih
  | remove k s _ ih => exact indexed_remove s k ih
  | clear s _ _ => exact indexed_clear s
  | sweep nowMs s _ ih => exact indexed_cleanup nowMs s ih

/-- C3.  `Set` fails with `KeyExists` exactly when the key holds a non-expired
entry (and then mutates nothing: the error branch returns no state);
otherwise it stores the fresh entry with `expiresAt = nowMs + ttl(ms)` for
`ttl > 0` and the never-expires sentinel `0` for `ttl ≤ 0`, touches no other
key, and registers the key in the expiry index whenever the entry can
expire. -/
theorem c3_set_semantics (k : String) (v : GoVal) (ttl nowMs : Int) (s : Cago) :
    (Set k v ttl nowMs s = .error () ↔
      ∃ e, s.data k = some e ∧ e.isExpiredAt nowMs = false) ∧
    (∀ s', Set k v ttl nowMs s = .ok s' →
      s'.data k = some ⟨k, v, if 0 < ttl then nowMs + msOf ttl else 0,
        nowMs, nowMs⟩ ∧
      (∀ q, q ≠ k → s'.data q = s.data q) ∧
      (∀ e', s'.data k = some e' → 0 < e'.expiresAt →
        k ∈ indexGet s'.index e'.expiresAt)) := by
  have hguard : ((s.data k).elim false (fun e => !(e.isExpiredAt nowMs))) = true
      ↔ ∃ e, s.data k = some e ∧ e.isExpiredAt nowMs = false := by
    cases hd : s.data k with
    | none => simp
    | some e => simp
  constructor
  · unfold Set
    by_cases hg : ((s.data k).elim false (fun e => !(e.isExpiredAt nowMs))) = true
    · rw [if_pos hg]
      constructor
      · intro _; exact hguard.mp hg
      · intro _; rfl
    · rw [if_neg hg]
      constructor
      · intro h; exact Except.noConfusion h
      · intro hex; exact absurd (hguard.mpr hex) hg
  · intro s' hok
    have hs' := Set_ok_shape k v ttl nowMs s s' hok
    subst hs'
    refine ⟨?_, ?_, ?_⟩
    · dsimp only
      unfold update
      rw [if_pos rfl]
      rfl
    · intro q hq
      dsimp only
      unfold update
      rw [if_neg hq]
    · intro e' he' hpos
      dsimp only at he' ⊢
      unfold update at he'
      rw [if_pos rfl] at he'
      injection he' with hh
      subst hh
      rw [if_pos (by simpa using hpos)]
      exact mem_indexGet_indexAppend_self s.index (setExp ttl nowMs) k

/-- The state `Set "k" 1 (ttl = 0) (now = 5)` builds from a fresh engine. -/
def c3state : Cago :=
  { data := update (fun _ => none) "k" (some ⟨"k", GoVal.int 1, 0, 5, 5⟩)
  , index := [] }

/-- Witness for C3: a successful `Set` with `ttl = 0` on a fresh engine. -/
theorem c3_set_semantics_witness :
    Set "k" (GoVal.int 1) 0 5 initState = Except.ok c3state ∧
    c3state.data "k" = some ⟨"k", GoVal.int 1, 0, 5, 5⟩ := by
  constructor
  · rfl
  · exact ((c3_set_semantics "k" (GoVal.int 1) 0 5 initState).2 c3state (by rfl)).1

/-- C4.  `Get` misses on an absent key (leaving the state untouched), and on
an expired entry it misses and lazily removes the entry, so the key is gone
from the table immediately afterwards. -/
theorem c4_get_lazy_eviction {α : Type} (cast : GoVal → Option α) (k : String)
    (nowMs : Int) (s : Cago) :
    (s.data k = none → Get cast k nowMs s = (none, s)) ∧
    (∀ e, s.data k = some e → e.isExpiredAt nowMs = true →
      (Get cast k nowMs s).1 = none ∧
      ((Get cast k nowMs s).2).data k = none) := by
  constructor
  · intro h
    unfold Get
    rw [h]
  · intro e he hex
    have hremove : ((Remove k s).2).data k = none := by
      unfold Remove
      rw [he]
      dsimp only
      unfold update
      rw [if_pos rfl]
    unfold Get
    rw [he]
    simp [hex, hremove]

/-- The state `Put "a" 1 (ttl = 2ms) (now = 5)` builds: entry expires at 7. -/
def c4state : Cago := Put "a" (GoVal.int 1) 2000000 5 initState

/-- Witness for C4: reading key `"a"` at time 10 (past its expiry 7) misses
and removes the entry. -/
theorem c4_get_lazy_eviction_witness :
    (c4state.data "a" = some ⟨"a", GoVal.int 1, 7, 5, 5⟩ ∧
      (⟨"a", GoVal.int 1, 7, 5, 5⟩ : Entry).isExpiredAt 10 = true) ∧
    (Get castStr "a" 10 c4state).1 = none ∧
    ((Get castStr "a" 10 c4state).2).data "a" = none := by
  refine ⟨⟨by decide, by decide⟩, ?_, ?_⟩
  · exact ((c4_get_lazy_eviction castStr "a" 10 c4state).2
      ⟨"a", GoVal.int 1, 7, 5, 5⟩ (by decide) (by decide)).1
  · exact ((c4_get_lazy_eviction castStr "a" 10 c4state).2
      ⟨"a", GoVal.int 1, 7, 5, 5⟩ (by decide) (by decide)).2

/-- C5.  The expiry predicate holds iff `expiresAt > 0` and
`nowMs ≥ expiresAt`; in particular `expiresAt = 0` never expires, so a key
`Set` with `ttl ≤ 0` exists at every later (indeed, every) time. -/
theorem c5_expiry_predicate (e : Entry) (nowMs : Int) :
    (e.isExpiredAt nowMs = true ↔ 0 < e.expiresAt ∧ e.expiresAt ≤ nowMs) ∧
    (e.expiresAt = 0 → e.isExpiredAt nowMs = false) ∧
    (∀ k v ttl t0 s s', ttl ≤ 0 → Set k v ttl t0 s = .ok s' →
      ∀ t, Exist k t s' = true) := by
  refine ⟨?_, ?_, ?_⟩
  · unfold Entry.isExpiredAt
    simp only [Bool.and_eq_true, decide_eq_true_eq, gt_iff_lt, ge_iff_le]
  · intro h
    unfold Entry.isExpiredAt
    rw [h]
    simp
  · intro k v ttl t0 s s' httl hok t
    have hs' := Set_ok_shape k v ttl t0 s s' hok
    subst hs'
    unfold Exist
    dsimp only
    unfold update
    rw [if_pos rfl]
    dsimp only [Option.elim]
    unfold Entry.isExpiredAt
    dsimp only
    rw [show setExp ttl t0 = 0 from by unfold setExp; rw [if_neg (by omega)]]
    simp

/-- The state `Set "k" 1 (ttl = -5) (now = 5)` builds: sentinel expiry 0. -/
def c5state : Cago :=
  { data := update (fun _ => none) "k" (some ⟨"k", GoVal.int 1, 0, 5, 5⟩)
  , index := [] }

/-- Witness for C5: the `ttl ≤ 0` entry still exists at time 10^6. -/
theorem c5_expiry_predicate_witness :
    ((-5 : Int) ≤ 0 ∧ Set "k" (GoVal.int 1) (-5) 5 initState = Except.ok c5state) ∧
    Exist "k" 1000000 c5state = true := by
  refine ⟨⟨by decide, by rfl⟩, ?_⟩
  exact (c5_expiry_predicate ⟨"k", GoVal.int 1, 0, 5, 5⟩ 0).2.2 "k" (GoVal.int 1)
    (-5) 5 initState c5state (by decide) (by rfl) 1000000

/-- C6.  The janitor's sweep re-validates against the live entry: an entry
that is not actually expired at sweep time survives `cleanup` unconditionally
— in particular a stale index bucket whose timestamp has passed cannot evict
an entry whose own `expiresAt` is `0` or still in the future. -/
theorem c6_cleanup_revalidates (s : Cago) (nowMs : Int) (k : String) (e : Entry)
    (hk : s.data k = some e) (he : e.isExpiredAt nowMs = false) :
    (cleanup nowMs s).data k = some e :=
  cleanup_keep nowMs s k e hk he

/-- A state with a stale bucket: the index lists `"a"` under timestamp 3,
but the live entry for `"a"` never expires (`expiresAt = 0`). -/
def c6state : Cago :=
  { data := update (fun _ => none) "a" (some ⟨"a", GoVal.int 1, 0, 0, 0⟩)
  , index := [(3, ["a"])] }

/-- Witness for C6: sweeping at time 10 (past the stale bucket's 3) keeps
the never-expiring entry. -/
theorem c6_cleanup_revalidates_witness :
    (c6state.data "a" = some ⟨"a", GoVal.int 1, 0, 0, 0⟩ ∧
      (⟨"a", GoVal.int 1, 0, 0, 0⟩ : Entry).isExpiredAt 10 = false) ∧
    (cleanup 10 c6state).data "a" = some ⟨"a", GoVal.int 1, 0, 0, 0⟩ :=
  ⟨⟨by decide, by decide⟩,
    c6_cleanup_revalidates c6state 10 "a" ⟨"a", GoVal.int 1, 0, 0, 0⟩
      (by decide) (by decide)⟩

/-- C8.  When the stored dynamic value cannot satisfy the requested type —
the embedded type assertion `cast` returns `none` — `Get` reports a miss;
being a total function of the state, it cannot panic. -/
theorem c8_type_mismatch {α : Type} (cast : GoVal → Option α) (k : String)
    (nowMs : Int) (s : Cago) (e : Entry) (hk : s.data k = some e)
    (hc : cast e.value = none) : (Get cast k nowMs s).1 = none := by
  unfold Get
  rw [hk]
  cases hex : e.isExpiredAt nowMs with
  | true => simp only [hex, if_true]
  | false => simp only [hex, Bool.false_eq_true, if_false, hc]

/-- The state `Set "n" 42 (ttl = 0) (now = 5)` builds (via the insert path). -/
def c8state : Cago := Put "n" (GoVal.int 42) 0 5 initState

/-- Witness for C8: `set("n", 42)` then `get[string]("n")` misses. -/
theorem c8_type_mismatch_witness :
    (c8state.data "n" = some ⟨"n", GoVal.int 42, 0, 5, 5⟩ ∧
      castStr (GoVal.int 42) = none) ∧
    (Get castStr "n" 6 c8state).1 = none :=
  ⟨⟨by decide, rfl⟩,
    c8_type_mismatch castStr "n" 6 c8state ⟨"n", GoVal.int 42, 0, 5, 5⟩
      (by decide) rfl⟩

/-- C10.  In every reachable state the expiry-index invariant holds: each
entry that can expire is listed in the bucket keyed by its exact
`expiresAt`; consequently a single janitor sweep at any time past an
entry's expiry reclaims it, with no read required. -/
theorem c10_expiry_index_invariant (s : Cago) (h : Reachable s) :
    Indexed s ∧
    (∀ nowMs k e, s.data k = some e → 0 < e.expiresAt →
      e.expiresAt ≤ nowMs → (cleanup nowMs s).data k = none) := by
  have hi := reachable_indexed s h
  exact ⟨hi, fun nowMs k e hk hpos hle =>
    cleanup_kill nowMs s k e hi hk hpos hle⟩

/-- The reachable state `Put "a" 1 (ttl = 2ms) (now = 5)` builds. -/
def c10state : Cago := Put "a" (GoVal.int 1) 2000000 5 initState

/-- Witness for C10: sweeping the reachable state at time 7 (= the entry's
expiry) removes the never-read key `"a"`. -/
theorem c10_expiry_index_invariant_witness :
    c10state.data "a" = some ⟨"a", GoVal.int 1, 7, 5, 5⟩ ∧
    (cleanup 7 c10state).data "a" = none := by
  refine ⟨by decide, ?_⟩
  exact (c10_expiry_index_invariant c10state
      (Reachable.put "a" (GoVal.int 1) 2000000 5 initState Reachable.init)).2
    7 "a" ⟨"a", GoVal.int 1, 7, 5, 5⟩ (by decide) (by decide) (by decide)

end cago

namespace cagoMain

/-- `lib.Int64ToByte`: the 8-byte big-endian two's-complement encoding of an
`int64`. -/
def int64ToBytes (n : Int) : List Nat :=
  store.u64ToBytes (n.emod (2 ^ 64)).toNat

/-- The payload each branch of the `switch` in `Set`/`Put` builds before
calling `store.NewStore`: strings as their raw bytes, the integer family via
`lib.Int64ToByte`.  (The float/JSON branches are outside the claims.) -/
def encodeVal : cago.GoVal → List Nat
  | .str bs => bs
  | .int n => int64ToBytes n

/-- `Put` of the `cago.go` iteration: upserts a fresh Store built from the
value and the variadic `maxAge` exactly as passed; an unspecified `maxAge`
makes `NewStore` default the stored maxAge to 0 (never expire). -/
def Put (key : String) (v : cago.GoVal) (maxAge : Option Nat) (now : Nat)
    (s : String → Option store.Store) : String → Option store.Store :=
  cago.update s key (some (store.NewStore now (encodeVal v) maxAge))

end cagoMain

namespace cagoDraft

/-- `Put` of the `part_007` iteration: when the variadic `maxAge` is
unspecified and a prior entry exists, `old.MaxAge()` is appended to the
variadic first, carrying the previous TTL forward into the replacing
Store. -/
def Put (key : String) (v : cago.GoVal) (maxAge : Option Nat) (now : Nat)
    (s : String → Option store.Store) : String → Option store.Store :=
  let mA : Option Nat :=
    match maxAge with
    | some a => some a
    | none => (s key).map store.Store.MaxAge
  cago.update s key (some (store.NewStore now (cagoMain.encodeVal v) mA))

end cagoDraft

/-- A Store-engine state holding key `"k"` with stored maxAge 60. -/
def c7state : String → Option store.Store :=
  fun q => if q = "k" then some (store.NewStore 3 [7] (some 60)) else none

/-- C7, counterexample.  In the `cago.go` iteration, `Put` with the ttl
argument unspecified does **not** preserve the existing entry's maxAge: on a
state whose entry for `"k"` stores maxAge 60, the replacing entry stores
maxAge 0 (never-expire default). -/
theorem c7_counterexample :
    ¬ ((cagoMain.Put "k" (cago.GoVal.str [9]) none 9 c7state "k").map
          store.Store.MaxAge
        = (c7state "k").map store.Store.MaxAge) := by
  decide

/-- C7, amended.  The TTL carry-forward rule holds for the `part_007`
iteration's `Put` (the draft implementing the input-copy-forward rule): with
`maxAge` unspecified and a prior entry present, the replacing entry stores
exactly the prior entry's `MaxAge()`.  The `cago.go` iteration's `Put`
instead defaults the stored maxAge to 0, as `c7_counterexample` shows. -/
theorem c7_put_carries_ttl_forward (key : String) (v : cago.GoVal) (now : Nat)
    (s : String → Option store.Store) (old : store.Store)
    (hold : s key = some old) :
    (cagoDraft.Put key v none now s key).map store.Store.MaxAge
      = some (store.Store.MaxAge old) := by
  unfold cagoDraft.Put
  dsimp only
  rw [hold]
  unfold cago.update
  rw [if_pos rfl]
  simp only [Option.map_some']
  rw [store.NewStore_maxAge]
  simp only [Option.getD_some]
  rw [Nat.mod_eq_of_lt]
  exact store.bytesToU64_lt _

/-- Witness for the amended C7 on `c7state`. -/
theorem c7_put_carries_ttl_forward_witness :
    c7state "k" = some (store.NewStore 3 [7] (some 60)) ∧
    (cagoDraft.Put "k" (cago.GoVal.str [9]) none 9 c7state "k").map
        store.Store.MaxAge
      = some (store.Store.MaxAge (store.NewStore 3 [7] (some 60))) :=
  ⟨by decide,
    c7_put_carries_ttl_forward "k" (cago.GoVal.str [9]) 9 c7state
      (store.NewStore 3 [7] (some 60)) (by decide)⟩
